import Mathlib

/-!
# Verification of the Fredalizer detection pipeline

Shallow embedding of the two source hooks:

* `src/hooks/useVisionEngine.ts` — the Range Merger (`processDetections`),
  the frame-sampling loop (`runLoop`) and the detection orchestrator,
  modelled as an event-driven state machine (`step` / `run`).
* the video-processor hook (`processVideoFF`) built on the external
  rendering engine.

Timestamps (JS numbers holding media times in seconds) are modelled as `ℚ`;
the properties at stake are order/arithmetic properties for which `ℚ` is a
faithful carrier of the source's comparisons.
-/

/-- `DetectionRange` of `useVisionEngine.ts` (`start`, `end`, `confidence`). -/
structure DetectionRange where
  start : ℚ
  «end» : ℚ
  confidence : ℚ
deriving DecidableEq, Repr

/-- The fixed `TOLERANCE = 0.5` of `processDetections`. -/
def TOLERANCE : ℚ := 1/2

/-- The scan loop of `processDetections` (`for (let i = 1; ...)`):
`start`/`prev` are the mutable locals; on a gap `curr - prev > TOLERANCE`
the open range `{start, prev}` is emitted and a new one opened at `curr`;
the still-open range is emitted at the end. -/
def mergeLoop : List ℚ → ℚ → ℚ → List DetectionRange
  | [], start, prev => [⟨start, prev, 1⟩]
  | curr :: rest, start, prev =>
      if TOLERANCE < curr - prev then
        ⟨start, prev, 1⟩ :: mergeLoop rest curr curr
      else
        mergeLoop rest start curr

/-- `processDetections` of `useVisionEngine.ts`: sort a copy of the
timestamps ascending (`[...timestamps].sort((a, b) => a - b)`, embedded as
`insertionSort`, extensionally the same sorted permutation), then run the
merging scan.  Empty input returns `[]`. -/
def processDetections (timestamps : List ℚ) : List DetectionRange :=
  match List.insertionSort (· ≤ ·) timestamps with
  | [] => []
  | t :: rest => mergeLoop rest t t

/-! ## Structural lemmas about the merging scan

All lemmas are stated for `mergeLoop l s p` under the invariants that hold
when the scan runs on a sorted list: `s ≤ p` (the open range is well formed)
and `List.Chain (· ≤ ·) p l` (the remaining timestamps continue ascending
from `prev`). -/

/-- The scan always emits at least one range, the first of which starts at
the open range's `start` and ends no earlier than `prev`. -/
theorem mergeLoop_head (l : List ℚ) (s p : ℚ) (hc : List.Chain (· ≤ ·) p l) :
    ∃ e rest, mergeLoop l s p = ⟨s, e, 1⟩ :: rest ∧ p ≤ e := by
  induction l generalizing s p with
  | nil => exact ⟨p, [], rfl, le_refl p⟩
  | cons c r ih =>
      rw [List.chain_cons] at hc
      by_cases hgap : TOLERANCE < c - p
      · exact ⟨p, mergeLoop r c c, by simp [mergeLoop, hgap], le_refl p⟩
      · obtain ⟨e, rest, heq, hce⟩ := ih s c hc.2
        exact ⟨e, rest, by simp [mergeLoop, hgap, heq], le_trans hc.1 hce⟩

/-- Every range emitted by the scan starts no earlier than `s`. -/
theorem mergeLoop_start_lb (l : List ℚ) (s p : ℚ) (hsp : s ≤ p)
    (hc : List.Chain (· ≤ ·) p l) :
    ∀ rg ∈ mergeLoop l s p, s ≤ rg.start := by
  induction l generalizing s p with
  | nil => intro rg hrg; simp [mergeLoop] at hrg; simp [hrg]
  | cons c r ih =>
      rw [List.chain_cons] at hc
      intro rg hrg
      by_cases hgap : TOLERANCE < c - p
      · simp only [mergeLoop, if_pos hgap, List.mem_cons] at hrg
        rcases hrg with h | h
        · simp [h]
        · have : c ≤ rg.start := ih c c (le_refl c) hc.2 rg h
          have hpc : p ≤ c := hc.1
          linarith
      · simp only [mergeLoop, if_neg hgap] at hrg
        exact ih s c (le_trans hsp hc.1) hc.2 rg hrg

/-- Every range emitted by the scan is well formed: `start ≤ end`. -/
theorem mergeLoop_start_le_end (l : List ℚ) (s p : ℚ) (hsp : s ≤ p)
    (hc : List.Chain (· ≤ ·) p l) :
    ∀ rg ∈ mergeLoop l s p, rg.start ≤ rg.«end» := by
  induction l generalizing s p with
  | nil => intro rg hrg; simp [mergeLoop] at hrg; simp [hrg, hsp]
  | cons c r ih =>
      rw [List.chain_cons] at hc
      intro rg hrg
      by_cases hgap : TOLERANCE < c - p
      · simp only [mergeLoop, if_pos hgap, List.mem_cons] at hrg
        rcases hrg with h | h
        · simp [h, hsp]
        · exact ih c c (le_refl c) hc.2 rg h
      · simp only [mergeLoop, if_neg hgap] at hrg
        exact ih s c (le_trans hsp hc.1) hc.2 rg hrg

/-- Every range emitted by the scan has confidence `1.0`. -/
theorem mergeLoop_confidence (l : List ℚ) (s p : ℚ) :
    ∀ rg ∈ mergeLoop l s p, rg.confidence = 1 := by
  induction l generalizing s p with
  | nil => intro rg hrg; simp [mergeLoop] at hrg; simp [hrg]
  | cons c r ih =>
      intro rg hrg
      by_cases hgap : TOLERANCE < c - p
      · simp only [mergeLoop, if_pos hgap, List.mem_cons] at hrg
        rcases hrg with h | h
        · simp [h]
        · exact ih c c rg h
      · simp only [mergeLoop, if_neg hgap] at hrg
        exact ih s c rg hrg

/-- Endpoints of emitted ranges are taken from the scanned values. -/
theorem mergeLoop_endpoints (l : List ℚ) (s p : ℚ) :
    ∀ rg ∈ mergeLoop l s p,
      (rg.start = s ∨ rg.start ∈ l) ∧ (rg.«end» = p ∨ rg.«end» ∈ l) := by
  induction l generalizing s p with
  | nil => intro rg hrg; simp [mergeLoop] at hrg; simp [hrg]
  | cons c r ih =>
      intro rg hrg
      by_cases hgap : TOLERANCE < c - p
      · simp only [mergeLoop, if_pos hgap, List.mem_cons] at hrg
        rcases hrg with h | h
        · simp [h]
        · obtain ⟨h1, h2⟩ := ih c c rg h
          constructor
          · rcases h1 with h1 | h1 <;> simp [h1]
          · rcases h2 with h2 | h2 <;> simp [h2]
      · simp only [mergeLoop, if_neg hgap] at hrg
        obtain ⟨h1, h2⟩ := ih s c rg hrg
        constructor
        · rcases h1 with h1 | h1 <;> simp [h1]
        · rcases h2 with h2 | h2 <;> simp [h2]

/-- Any two ranges emitted by the scan, in emission order, are separated by
a gap strictly larger than the tolerance. -/
theorem mergeLoop_pairwise_gap (l : List ℚ) (s p : ℚ) (hsp : s ≤ p)
    (hc : List.Chain (· ≤ ·) p l) :
    List.Pairwise (fun a b => a.«end» + 1/2 < b.start) (mergeLoop l s p) := by
  induction l generalizing s p with
  | nil => simp [mergeLoop]
  | cons c r ih =>
      rw [List.chain_cons] at hc
      by_cases hgap : TOLERANCE < c - p
      · simp only [mergeLoop, if_pos hgap]
        refine List.Pairwise.cons ?_ (ih c c (le_refl c) hc.2)
        intro rg hrg
        have hcs : c ≤ rg.start := mergeLoop_start_lb r c c (le_refl c) hc.2 rg hrg
        simp only [TOLERANCE] at hgap
        linarith
      · simp only [mergeLoop, if_neg hgap]
        exact ih s c (le_trans hsp hc.1) hc.2

/-- Every scanned value is covered by some emitted range. -/
theorem mergeLoop_covers (l : List ℚ) (s p : ℚ) (hsp : s ≤ p)
    (hc : List.Chain (· ≤ ·) p l) :
    ∀ t : ℚ, (t = s ∨ t = p ∨ t ∈ l) →
      ∃ rg ∈ mergeLoop l s p, rg.start ≤ t ∧ t ≤ rg.«end» := by
  induction l generalizing s p with
  | nil =>
      intro t ht
      refine ⟨⟨s, p, 1⟩, by simp [mergeLoop], ?_⟩
      rcases ht with h | h | h
      · simp [h, hsp]
      · simp [h, hsp]
      · simp at h
  | cons c r ih =>
      rw [List.chain_cons] at hc
      intro t ht
      by_cases hgap : TOLERANCE < c - p
      · simp only [mergeLoop, if_pos hgap]
        rcases ht with h | h | h
        · exact ⟨⟨s, p, 1⟩, by simp, by simp [h, hsp]⟩
        · exact ⟨⟨s, p, 1⟩, by simp, by simp [h, hsp]⟩
        · rcases List.mem_cons.mp h with h | h
          · obtain ⟨rg, hrg, hcov⟩ := ih c c (le_refl c) hc.2 t (Or.inl h)
            exact ⟨rg, List.mem_cons_of_mem _ hrg, hcov⟩
          · obtain ⟨rg, hrg, hcov⟩ := ih c c (le_refl c) hc.2 t (Or.inr (Or.inr h))
            exact ⟨rg, List.mem_cons_of_mem _ hrg, hcov⟩
      · simp only [mergeLoop, if_neg hgap]
        have hsc : s ≤ c := le_trans hsp hc.1
        rcases ht with h | h | h
        · exact ih s c hsc hc.2 t (Or.inl h)
        · -- t = p is swallowed into the still-open range, whose head
          -- eventually closes with an end no earlier than c ≥ p.
          obtain ⟨e, rest, heq, hce⟩ := mergeLoop_head r s c hc.2
          refine ⟨⟨s, e, 1⟩, by simp [heq], ?_⟩
          constructor
          · simp [h, hsp]
          · simp only [h]
            exact le_trans hc.1 hce
        · rcases List.mem_cons.mp h with h | h
          · exact ih s c hsc hc.2 t (Or.inr (Or.inl h))
          · exact ih s c hsc hc.2 t (Or.inr (Or.inr h))

/-- In a list of well-formed ranges that are pairwise separated, a point
covered by some range is covered by exactly one. -/
theorem count_containing_eq_one (rs : List DetectionRange) (t : ℚ)
    (hdisj : List.Pairwise (fun a b => a.«end» < b.start) rs)
    (hcov : ∃ rg ∈ rs, rg.start ≤ t ∧ t ≤ rg.«end») :
    rs.countP (fun rg => decide (rg.start ≤ t ∧ t ≤ rg.«end»)) = 1 := by
  induction rs with
  | nil => simp at hcov
  | cons a tl ih =>
      rw [List.pairwise_cons] at hdisj
      by_cases ha : a.start ≤ t ∧ t ≤ a.«end»
      · have htl : tl.countP (fun rg => decide (rg.start ≤ t ∧ t ≤ rg.«end»)) = 0 := by
          rw [List.countP_eq_zero]
          intro rg hrg
          have hlt : a.«end» < rg.start := hdisj.1 rg hrg
          simp only [decide_eq_true_eq]
          intro hcon
          linarith [ha.2, hcon.1]
        rw [List.countP_cons_of_pos _ _ (by simp [ha.1, ha.2]), htl]
      · obtain ⟨rg, hrg, hcont⟩ := hcov
        rcases List.mem_cons.mp hrg with h | h
        · exact absurd (h ▸ hcont) ha
        · rw [List.countP_cons_of_neg _ _ (by simpa using ha)]
          exact ih hdisj.2 ⟨rg, h, hcont⟩

/-! ## Top-level facts about `processDetections` -/

/-- Decomposition of `processDetections` on a non-empty input: the sorted
copy is non-empty, ascending, and the scan runs on it. -/
theorem processDetections_decomp (ts : List ℚ) (hne : ts ≠ []) :
    ∃ h rest, List.insertionSort (· ≤ ·) ts = h :: rest ∧
      List.Chain (· ≤ ·) h rest ∧
      processDetections ts = mergeLoop rest h h := by
  have hperm := List.perm_insertionSort (· ≤ ·) ts
  have hsorted := List.sorted_insertionSort (· ≤ ·) ts
  match hst : List.insertionSort (· ≤ ·) ts with
  | [] =>
      rw [hst] at hperm
      exact absurd (hperm.symm.eq_nil) hne
  | h :: rest =>
      rw [hst] at hsorted
      refine ⟨h, rest, rfl, ?_, ?_⟩
      · exact List.chain_iff_pairwise.mpr hsorted
      · simp [processDetections, hst]

/-- A value is in the input iff it is in the sorted copy. -/
theorem mem_insertionSort_iff (ts : List ℚ) (t : ℚ) :
    t ∈ List.insertionSort (· ≤ ·) ts ↔ t ∈ ts :=
  (List.perm_insertionSort (· ≤ ·) ts).mem_iff

/-- Both endpoints of every produced range are input timestamps. -/
theorem processDetections_endpoints_mem (ts : List ℚ) :
    ∀ rg ∈ processDetections ts, rg.start ∈ ts ∧ rg.«end» ∈ ts := by
  intro rg hrg
  rcases eq_or_ne ts [] with hnil | hne
  · subst hnil; simp [processDetections, List.insertionSort] at hrg
  · obtain ⟨hd, rest, hst, hchain, hpd⟩ := processDetections_decomp ts hne
    rw [hpd] at hrg
    obtain ⟨h1, h2⟩ := mergeLoop_endpoints rest hd hd rg hrg
    constructor
    · rw [← mem_insertionSort_iff ts, hst]
      rcases h1 with h1 | h1 <;> simp [h1]
    · rw [← mem_insertionSort_iff ts, hst]
      rcases h2 with h2 | h2 <;> simp [h2]

/-- Produced ranges are well formed (`start ≤ end`). -/
theorem processDetections_start_le_end (ts : List ℚ) :
    ∀ rg ∈ processDetections ts, rg.start ≤ rg.«end» := by
  intro rg hrg
  have hne : ts ≠ [] := by
    rintro rfl; simp [processDetections, List.insertionSort] at hrg
  obtain ⟨hd, rest, hst, hchain, hpd⟩ := processDetections_decomp ts hne
  rw [hpd] at hrg
  exact mergeLoop_start_le_end rest hd hd (le_refl hd) hchain rg hrg

/-- Produced ranges all carry confidence `1.0`. -/
theorem processDetections_confidence (ts : List ℚ) :
    ∀ rg ∈ processDetections ts, rg.confidence = 1 := by
  intro rg hrg
  have hne : ts ≠ [] := by
    rintro rfl; simp [processDetections, List.insertionSort] at hrg
  obtain ⟨hd, rest, hst, hchain, hpd⟩ := processDetections_decomp ts hne
  rw [hpd] at hrg
  exact mergeLoop_confidence rest hd hd rg hrg

/-- Successive produced ranges are separated by a gap exceeding 0.5 s. -/
theorem processDetections_pairwise_gap (ts : List ℚ) :
    List.Pairwise (fun a b => a.«end» + 1/2 < b.start) (processDetections ts) := by
  rcases eq_or_ne ts [] with hnil | hne
  · subst hnil; simp [processDetections, List.insertionSort]
  · obtain ⟨hd, rest, hst, hchain, hpd⟩ := processDetections_decomp ts hne
    rw [hpd]
    exact mergeLoop_pairwise_gap rest hd hd (le_refl hd) hchain

/-- Produced ranges are strictly separated: each ends before the next starts. -/
theorem processDetections_pairwise_disjoint (ts : List ℚ) :
    List.Pairwise (fun a b => a.«end» < b.start) (processDetections ts) :=
  (processDetections_pairwise_gap ts).imp (fun h => by linarith)

/-- Every input timestamp is covered by some produced range. -/
theorem processDetections_covers (ts : List ℚ) :
    ∀ t ∈ ts, ∃ rg ∈ processDetections ts, rg.start ≤ t ∧ t ≤ rg.«end» := by
  intro t ht
  have hne : ts ≠ [] := by rintro rfl; simp at ht
  obtain ⟨hd, rest, hst, hchain, hpd⟩ := processDetections_decomp ts hne
  rw [hpd]
  have : t ∈ hd :: rest := by rw [← hst]; exact (mem_insertionSort_iff ts t).mpr ht
  rcases List.mem_cons.mp this with h | h
  · exact mergeLoop_covers rest hd hd (le_refl hd) hchain t (Or.inl h)
  · exact mergeLoop_covers rest hd hd (le_refl hd) hchain t (Or.inr (Or.inr h))

/-- A duplicate-free list contained in `l'` is no longer than `l'.dedup`. -/
theorem nodup_length_le_dedup (l l' : List ℚ) (hn : l.Nodup)
    (hsub : ∀ x ∈ l, x ∈ l') : l.length ≤ l'.dedup.length := by
  have h1 : l.toFinset.card = l.length := List.toFinset_card_of_nodup hn
  have h2 : l.toFinset ⊆ l'.toFinset := fun x hx =>
    List.mem_toFinset.mpr (hsub x (List.mem_toFinset.mp hx))
  calc l.length = l.toFinset.card := h1.symm
    _ ≤ l'.toFinset.card := Finset.card_le_card h2
    _ = l'.dedup.length := List.card_toFinset l'

/-- The starts of the produced ranges are pairwise distinct. -/
theorem processDetections_starts_nodup (ts : List ℚ) :
    ((processDetections ts).map DetectionRange.start).Nodup := by
  rw [List.Nodup, List.pairwise_map]
  have hdisj := processDetections_pairwise_disjoint ts
  refine hdisj.imp_of_mem ?_
  intro a b ha hb hab
  have h1 : a.start ≤ a.«end» := processDetections_start_le_end ts a ha
  intro hcon
  rw [hcon] at h1
  linarith

/-- Claim C3: for every non-empty input the output ranges are sorted
ascending and pairwise non-overlapping (each range ends strictly before the
next starts) and every input timestamp lies within exactly one output
range's `[start, end]`; the empty input gives the empty output and a single
timestamp `t` gives the single zero-width range `{t, t}`. -/
theorem rangeMerger_C3 (ts : List ℚ) :
    (ts = [] → processDetections ts = []) ∧
    (∀ t : ℚ, ts = [t] → processDetections ts = [⟨t, t, 1⟩]) ∧
    (ts ≠ [] →
      List.Pairwise (fun a b => a.«end» < b.start) (processDetections ts) ∧
      ∀ t ∈ ts,
        (processDetections ts).countP
          (fun rg => decide (rg.start ≤ t ∧ t ≤ rg.«end»)) = 1) := by
  refine ⟨?_, ?_, ?_⟩
  · rintro rfl; rfl
  · rintro t rfl
    simp [processDetections, List.insertionSort, List.orderedInsert, mergeLoop]
  · intro hne
    refine ⟨processDetections_pairwise_disjoint ts, ?_⟩
    intro t ht
    exact count_containing_eq_one (processDetections ts) t
      (processDetections_pairwise_disjoint ts)
      (processDetections_covers ts t ht)

/-- Witness for C3 at the concrete input `[2]`. -/
theorem rangeMerger_C3_witness :
    processDetections [(2 : ℚ)] = [⟨2, 2, 1⟩] :=
  (rangeMerger_C3 [(2 : ℚ)]).2.1 2 rfl

/-- Claim C9: every output endpoint is an input timestamp (hence the number
of output ranges is at most the number of distinct input timestamps), and
consecutive output ranges are separated by a gap strictly greater than
0.5 s.  The sort operates on a copy (`[...timestamps]`), so in this pure
embedding the input list itself is unchanged by construction. -/
theorem rangeMerger_C9 (ts : List ℚ) :
    (∀ rg ∈ processDetections ts, rg.start ∈ ts ∧ rg.«end» ∈ ts) ∧
    List.Pairwise (fun a b => a.«end» + 1/2 < b.start) (processDetections ts) ∧
    (processDetections ts).length ≤ ts.dedup.length := by
  refine ⟨processDetections_endpoints_mem ts, processDetections_pairwise_gap ts, ?_⟩
  have hlen : (processDetections ts).length =
      ((processDetections ts).map DetectionRange.start).length := by
    simp
  rw [hlen]
  refine nodup_length_le_dedup _ ts (processDetections_starts_nodup ts) ?_
  intro x hx
  obtain ⟨rg, hrg, hrgx⟩ := List.mem_map.mp hx
  have := (processDetections_endpoints_mem ts rg hrg).1
  rwa [hrgx] at this

/-- Witness for C9 at the concrete input `[2, 3]`: the range `{2, 2}` is
produced and both its endpoints are input timestamps. -/
theorem rangeMerger_C9_witness :
    (⟨2, 2, 1⟩ : DetectionRange).start ∈ ([2, 3] : List ℚ) ∧
    (⟨2, 2, 1⟩ : DetectionRange).«end» ∈ ([2, 3] : List ℚ) :=
  (rangeMerger_C9 [2, 3]).1 ⟨2, 2, 1⟩ (by
    norm_num [processDetections, List.insertionSort, List.orderedInsert,
      mergeLoop, TOLERANCE])

/-- Adjacent values of the scanned sequence: within tolerance they end up in
a common range, beyond tolerance the scan places a range boundary exactly
between them. -/
theorem mergeLoop_adjacent (l : List ℚ) (s p a b : ℚ) (u v : List ℚ)
    (hsp : s ≤ p) (hc : List.Chain (· ≤ ·) p l)
    (hdec : p :: l = u ++ a :: b :: v) :
    (b - a ≤ 1/2 → ∃ rg ∈ mergeLoop l s p, rg.start ≤ a ∧ b ≤ rg.«end») ∧
    (1/2 < b - a →
      ∃ rs1 rs2 r1 r2, mergeLoop l s p = rs1 ++ r1 :: r2 :: rs2 ∧
        r1.«end» = a ∧ r2.start = b) := by
  induction l generalizing s p u with
  | nil =>
      exfalso
      have := congrArg List.length hdec
      simp at this
      omega
  | cons c r ih =>
      rw [List.chain_cons] at hc
      cases u with
      | nil =>
          simp only [List.nil_append, List.cons.injEq] at hdec
          obtain ⟨rfl, rfl, rfl⟩ := hdec
          constructor
          · intro hclose
            have hgap : ¬ TOLERANCE < c - p := by
              simp only [TOLERANCE]; linarith
            simp only [mergeLoop, if_neg hgap]
            obtain ⟨e, rest, heq, hce⟩ := mergeLoop_head r s c hc.2
            exact ⟨⟨s, e, 1⟩, by simp [heq], by simpa using hsp, hce⟩
          · intro hfar
            have hgap : TOLERANCE < c - p := by
              simp only [TOLERANCE]; linarith
            simp only [mergeLoop, if_pos hgap]
            obtain ⟨e, rest, heq, hce⟩ := mergeLoop_head r c c hc.2
            exact ⟨[], rest, ⟨s, p, 1⟩, ⟨c, e, 1⟩, by simp [heq], rfl, rfl⟩
      | cons u0 u2 =>
          simp only [List.cons_append, List.cons.injEq] at hdec
          obtain ⟨rfl, hdec2⟩ := hdec
          by_cases hgap : TOLERANCE < c - p
          · simp only [mergeLoop, if_pos hgap]
            obtain ⟨ihc, ihf⟩ := ih c c u2 (le_refl c) hc.2 hdec2
            constructor
            · intro hclose
              obtain ⟨rg, hrg, hcov⟩ := ihc hclose
              exact ⟨rg, List.mem_cons_of_mem _ hrg, hcov⟩
            · intro hfar
              obtain ⟨rs1, rs2, r1, r2, heq, h1, h2⟩ := ihf hfar
              exact ⟨⟨s, p, 1⟩ :: rs1, rs2, r1, r2, by simp [heq], h1, h2⟩
          · simp only [mergeLoop, if_neg hgap]
            exact ih s c u2 (le_trans hsp hc.1) hc.2 hdec2

/-- Claim C4: for every adjacent pair `a`, `b` of the sorted input, a gap of
at most 0.5 s keeps them in one output range and a larger gap places a range
boundary (one range ending at `a`, the next starting at `b`) between them;
and the concrete input `[1.0, 1.2, 1.6, 5.0, 5.3]` yields exactly the two
ranges `{1.0, 1.6}` and `{5.0, 5.3}`. -/
theorem rangeMerger_C4 :
    (∀ (ts u v : List ℚ) (a b : ℚ),
      List.insertionSort (· ≤ ·) ts = u ++ a :: b :: v →
      (b - a ≤ 1/2 →
        ∃ rg ∈ processDetections ts, rg.start ≤ a ∧ b ≤ rg.«end») ∧
      (1/2 < b - a →
        ∃ rs1 rs2 r1 r2, processDetections ts = rs1 ++ r1 :: r2 :: rs2 ∧
          r1.«end» = a ∧ r2.start = b)) ∧
    processDetections [1, 6/5, 8/5, 5, 53/10] =
      [⟨1, 8/5, 1⟩, ⟨5, 53/10, 1⟩] := by
  constructor
  · intro ts u v a b hdec
    have hne : ts ≠ [] := by
      rintro rfl
      have := congrArg List.length hdec
      simp [List.insertionSort] at this
      omega
    obtain ⟨h, rest, hst, hchain, hpd⟩ := processDetections_decomp ts hne
    rw [hst] at hdec
    rw [hpd]
    exact mergeLoop_adjacent rest h h a b u v (le_refl h) hchain hdec
  · norm_num [processDetections, List.insertionSort, List.orderedInsert,
      mergeLoop, TOLERANCE]

/-- Witness for C4 at the concrete input `[0, 1]`: the gap `1 > 0.5`
produces a boundary, the first range ending at `0`, the second starting
at `1`. -/
theorem rangeMerger_C4_witness :
    ∃ rs1 rs2 r1 r2,
      processDetections [0, 1] = rs1 ++ r1 :: r2 :: rs2 ∧
        r1.«end» = (0 : ℚ) ∧ r2.start = 1 :=
  (rangeMerger_C4.1 [0, 1] [] [] 0 1
    (by norm_num [List.insertionSort, List.orderedInsert])).2 (by norm_num)

/-- Modelled from the spec: "taking the list of start/end endpoints of the
output ranges" — the boundary-point list that claim C2 re-merges. -/
def boundaryPoints : List DetectionRange → List ℚ
  | [] => []
  | rg :: rest => rg.start :: rg.«end» :: boundaryPoints rest

/-- Unfolding of `processDetections` through a known sorted copy. -/
theorem processDetections_eq_of_sorted_cons (l : List ℚ) (x : ℚ) (xs : List ℚ)
    (h : List.insertionSort (· ≤ ·) l = x :: xs) :
    processDetections l = mergeLoop xs x x := by
  simp [processDetections, h]

/-- For well-formed, gap-separated ranges the boundary-point list is
ascending. -/
theorem boundaryPoints_chain (rs : List DetectionRange)
    (hwf : ∀ rg ∈ rs, rg.start ≤ rg.«end»)
    (hgap : List.Chain' (fun a b => a.«end» + 1/2 < b.start) rs) :
    List.Chain' (· ≤ ·) (boundaryPoints rs) := by
  induction rs with
  | nil => simp [boundaryPoints]
  | cons r rs' ih =>
      have h1 : r.start ≤ r.«end» := hwf r (by simp)
      have htail : List.Chain' (· ≤ ·) (r.«end» :: boundaryPoints rs') := by
        cases rs' with
        | nil => simp [boundaryPoints]
        | cons r2 rest =>
            rw [List.chain'_cons] at hgap
            have hbp : boundaryPoints (r2 :: rest) =
                r2.start :: r2.«end» :: boundaryPoints rest := rfl
            rw [hbp, List.chain'_cons]
            refine ⟨by linarith [hgap.1], ?_⟩
            rw [← hbp]
            exact ih (fun rg hrg => hwf rg (List.mem_cons_of_mem _ hrg)) hgap.2
      exact List.chain'_cons.mpr ⟨h1, htail⟩

/-- Re-merging the boundary points of well-formed, narrow (width at most the
tolerance), gap-separated, confidence-1 ranges reproduces them exactly. -/
theorem mergeLoop_boundaryPoints (rs : List DetectionRange) (r : DetectionRange)
    (hwf : ∀ rg ∈ r :: rs,
      rg.start ≤ rg.«end» ∧ rg.confidence = 1 ∧ rg.«end» - rg.start ≤ 1/2)
    (hgap : List.Chain' (fun a b => a.«end» + 1/2 < b.start) (r :: rs)) :
    mergeLoop (r.«end» :: boundaryPoints rs) r.start r.start = r :: rs := by
  induction rs generalizing r with
  | nil =>
      obtain ⟨h1, h2, h3⟩ := hwf r (by simp)
      have hng : ¬ TOLERANCE < r.«end» - r.start := by
        simp only [TOLERANCE]; linarith
      simp only [boundaryPoints, mergeLoop, if_neg hng]
      cases r
      simp_all
  | cons r2 rest ih =>
      obtain ⟨h1, h2, h3⟩ := hwf r (by simp)
      rw [List.chain'_cons] at hgap
      have hng : ¬ TOLERANCE < r.«end» - r.start := by
        simp only [TOLERANCE]; linarith
      have hpos : TOLERANCE < r2.start - r.«end» := by
        simp only [TOLERANCE]; linarith [hgap.1]
      have hbp : boundaryPoints (r2 :: rest) =
          r2.start :: r2.«end» :: boundaryPoints rest := rfl
      rw [hbp]
      have hr : (⟨r.start, r.«end», 1⟩ : DetectionRange) = r := by
        cases r; simp_all
      rw [mergeLoop, if_neg hng, mergeLoop, if_pos hpos, hr,
        ih r2 (fun rg hrg => hwf rg (List.mem_cons_of_mem _ hrg)) hgap.2]

/-- Counterexample to claim C2 as stated: for input `[1.0, 1.2, 1.6]` the
merger returns the single range `{1.0, 1.6}`, whose boundary points
`[1.0, 1.6]` are 0.6 s apart; re-merging them splits the range in two, so
the output is not reproduced. -/
theorem rangeMerger_C2_cex :
    processDetections (boundaryPoints (processDetections [1, 6/5, 8/5])) ≠
      processDetections [1, 6/5, 8/5] := by
  norm_num [processDetections, List.insertionSort, List.orderedInsert,
    mergeLoop, TOLERANCE, boundaryPoints]

/-- Claim C2 as amended: the Range Merger is idempotent under re-merging its
own output boundary points for every input whose output ranges each span at
most the 0.5 s tolerance (the counterexample shows a range wider than the
tolerance is split by the re-merge). -/
theorem rangeMerger_C2_amended (ts : List ℚ)
    (hw : ∀ rg ∈ processDetections ts, rg.«end» - rg.start ≤ 1/2) :
    processDetections (boundaryPoints (processDetections ts)) =
      processDetections ts := by
  rcases eq_or_ne ts [] with rfl | hne
  · rfl
  · obtain ⟨hd, rest, hst, hchain, hpd⟩ := processDetections_decomp ts hne
    obtain ⟨e, rs', heq, hpe⟩ := mergeLoop_head rest hd hd hchain
    have hrs : processDetections ts = ⟨hd, e, 1⟩ :: rs' := by rw [hpd, heq]
    set r : DetectionRange := ⟨hd, e, 1⟩ with hr
    have hwf : ∀ rg ∈ r :: rs',
        rg.start ≤ rg.«end» ∧ rg.confidence = 1 ∧ rg.«end» - rg.start ≤ 1/2 := by
      intro rg hrg
      rw [← hrs] at hrg
      exact ⟨processDetections_start_le_end ts rg hrg,
        processDetections_confidence ts rg hrg, hw rg hrg⟩
    have hgap : List.Chain' (fun a b => a.«end» + 1/2 < b.start) (r :: rs') := by
      rw [← hrs]
      exact (processDetections_pairwise_gap ts).chain'
    have hbps : List.Chain' (· ≤ ·) (boundaryPoints (r :: rs')) :=
      boundaryPoints_chain (r :: rs') (fun rg hrg => (hwf rg hrg).1) hgap
    have hsorted : List.Sorted (· ≤ ·) (boundaryPoints (r :: rs')) :=
      List.chain'_iff_pairwise.mp hbps
    have hsort_eq : List.insertionSort (· ≤ ·) (boundaryPoints (r :: rs')) =
        boundaryPoints (r :: rs') := hsorted.insertionSort_eq
    have hunfold : processDetections (boundaryPoints (r :: rs')) =
        mergeLoop (r.«end» :: boundaryPoints rs') r.start r.start :=
      processDetections_eq_of_sorted_cons _ r.start (r.«end» :: boundaryPoints rs')
        (by rw [hsort_eq]; rfl)
    rw [hrs, hunfold, mergeLoop_boundaryPoints rs' r hwf hgap]

/-- Witness for the amended C2 at the concrete input `[1, 1.3]`: the single
output range `{1, 1.3}` is 0.3 s wide and re-merging its boundary points
reproduces it. -/
theorem rangeMerger_C2_amended_witness :
    processDetections (boundaryPoints (processDetections [1, 13/10])) =
      processDetections [1, 13/10] :=
  rangeMerger_C2_amended [1, 13/10] (by
    norm_num [processDetections, List.insertionSort, List.orderedInsert,
      mergeLoop, TOLERANCE])

/-! ## Frame sampler loop (`loop` inside `startVideoProcessing`)

One invocation of the `requestVideoFrameCallback` callback per list entry.
The callback first checks `signal.aborted` (pausing and not rescheduling if
set), then in a `try` block extracts the pixels, posts `PROCESS_FRAME` with
the frame's `metadata.mediaTime`, increments `frameCount`, reports progress
every 30 frames, and reschedules itself; a throw inside the `try` (modelled
by `extractOk = false`) jumps to the `catch`, which only logs — in
particular the rescheduling line is skipped, so no further callbacks run. -/

/-- `Math.round` of JS: round half toward positive infinity. -/
def jsRound (q : ℚ) : ℤ := ⌊q + 1/2⌋

/-- `Math.min(100, Math.round((mediaTime / video.duration) * 100))`. -/
def progressOf (t dur : ℚ) : ℤ := min 100 (jsRound (t / dur * 100))

/-- One frame as delivered by the playback clock: its media time, whether
pixel extraction succeeds, and whether the run's abort signal was already
set when the callback fired. -/
structure Frame where
  mediaTime : ℚ
  extractOk : Bool
  aborted : Bool
deriving DecidableEq, Repr

/-- Observable output of the frame loop: timestamps posted to the worker
(in order) and the progress values reported via `setState`. -/
structure LoopOut where
  submitted : List ℚ
  reports : List ℤ
deriving DecidableEq, Repr

/-- The frame loop.  `frameCount` is the mutable counter (starts at 0). -/
def runLoop (dur : ℚ) : List Frame → ℕ → LoopOut
  | [], _ => ⟨[], []⟩
  | f :: rest, frameCount =>
      if f.aborted then ⟨[], []⟩
      else if f.extractOk then
        match runLoop dur rest (frameCount + 1) with
        | ⟨subm, reps⟩ =>
            ⟨f.mediaTime :: subm,
             (if (frameCount + 1) % 30 = 0 then [progressOf f.mediaTime dur]
              else []) ++ reps⟩
      else ⟨[], []⟩

/-- Unfolding equation for a successfully processed frame. -/
theorem runLoop_cons_ok (dur : ℚ) (f : Frame) (rest : List Frame) (fc : ℕ)
    (h1 : f.aborted = false) (h2 : f.extractOk = true) :
    runLoop dur (f :: rest) fc =
      ⟨f.mediaTime :: (runLoop dur rest (fc + 1)).submitted,
       (if (fc + 1) % 30 = 0 then [progressOf f.mediaTime dur] else []) ++
         (runLoop dur rest (fc + 1)).reports⟩ := by
  rw [runLoop]
  rcases hout : runLoop dur rest (fc + 1) with ⟨subm, reps⟩
  simp [h1, h2, hout]

/-- Claim C5 is violated by the code: the callback rescheduling sits inside
the `try` block, so when extraction of the second frame throws, the loop is
never rescheduled and the perfectly healthy third frame is never processed.
Evaluation of the loop at that failing input: only the first frame's
timestamp is ever submitted. -/
theorem frameLoop_C5_bug :
    runLoop 10 [⟨0, true, false⟩, ⟨1, false, false⟩, ⟨2, true, false⟩] 0 =
      ⟨[0], []⟩ ∧
    (2 : ℚ) ∉
      (runLoop 10 [⟨0, true, false⟩, ⟨1, false, false⟩, ⟨2, true, false⟩] 0).submitted := by
  constructor <;> norm_num [runLoop, progressOf, jsRound]

/-- A run of frames at integer media times `k, k+1, ...`, all extracting
successfully, never aborted. -/
def rampFrom : ℕ → ℕ → List Frame
  | _, 0 => []
  | k, n + 1 => ⟨(k : ℚ), true, false⟩ :: rampFrom (k + 1) n

set_option maxRecDepth 4000 in
/-- Counterexample to claim C7 as stated: on a 100000 s video sampled at
media times 1..60 s, the two progress reports (at frames 30 and 60) are
both `round(100·t/duration) = 0`, so the reported values do not strictly
increase. -/
theorem frameLoop_C7_cex :
    (runLoop 100000 (rampFrom 1 60) 0).reports = [0, 0] ∧
    ¬ List.Chain' (· < ·) ((runLoop 100000 (rampFrom 1 60) 0).reports) := by
  have h : (runLoop 100000 (rampFrom 1 60) 0).reports = [0, 0] := by
    norm_num [rampFrom, runLoop, progressOf, jsRound]
  refine ⟨h, ?_⟩
  rw [h]
  norm_num [List.chain'_cons]

/-! ## Detection orchestrator (`useVisionEngine`) as an event system

State and transition function translated from `processVideo` and its inner
closures.  An invocation of `processVideo` is numbered by a generation
counter `current`; the `AbortController` of run `r` is aborted exactly when
`r ≠ current` (each new invocation aborts the previous controller).
`worker` holds the generation of the live (not yet terminated) worker —
messages of a terminated worker are never delivered.  `playLoop` holds the
generation whose processing promise (resolved by `video.onended`, rejected
by `video.onerror`) is pending.  `pendingRejection` records that a promise
rejection escaped `startVideoProcessing`, which neither awaits nor catches
it (there is no try/catch in that function). -/

/-- The `status` field of `VisionState`. -/
inductive Status where
  | idle
  | initializing
  | calibrating
  | processing
  | completed
  | error
deriving DecidableEq, Repr

/-- `VisionState` of `useVisionEngine.ts`. -/
structure VisionState where
  isProcessing : Bool
  progress : ℤ
  status : Status
  detections : List DetectionRange
deriving DecidableEq, Repr

/-- Asynchronous happenings the orchestrator reacts to.  Worker messages
(`READY`, `CALIBRATION_COMPLETE`, `CALIBRATION_FAILED`, `FRAME_RESULT`)
carry the generation `r` of the worker that sent them; playback events
carry the generation of the run whose video promise settles. -/
inductive Event where
  | start
  | ready (r : ℕ)
  | calibComplete (r : ℕ)
  | calibFailed (r : ℕ)
  | frameResult (r : ℕ) (detected : Bool) (t : ℚ)
  | videoError (r : ℕ)
  | playbackEnded (r : ℕ)
deriving DecidableEq, Repr

/-- Global orchestrator state: generation counter, the React state, the
`rawDetectionsRef` buffer, the live worker and pending playback promise,
and whether an uncaught rejection has escaped. -/
structure GState where
  current : ℕ
  vstate : VisionState
  buffer : List ℚ
  worker : Option ℕ
  playLoop : Option ℕ
  pendingRejection : Bool
deriving DecidableEq, Repr

/-- Initial hook state (`useState` initializer). -/
def initState : GState :=
  ⟨0, ⟨false, 0, Status.idle, []⟩, [], none, none, false⟩

/-- One transition of the orchestrator.

* `start`: the body of `processVideo` up to `postMessage INIT` runs
  synchronously — reset `VisionState`, clear `rawDetectionsRef`, abort the
  previous controller (generation bump), terminate the previous worker,
  spawn a fresh worker.
* `ready r` (delivered only while worker `r` is alive): `startCalibration`
  returns at once if `signal.aborted`, else sets status `calibrating`.
* `calibComplete r` / `calibFailed r`: both call `startVideoProcessing`,
  which returns at once if `signal.aborted`, else sets status `processing`
  and starts playback of run `r`.
* `frameResult r detected t`: the handler pushes the timestamp with **no**
  abort check; staleness protection is only that terminated workers
  deliver nothing.
* `videoError r`: `reject` settles run `r`'s pending promise; nothing
  catches it, so the only effect is an escaped rejection.
* `playbackEnded r`: `resolve` settles the promise; the continuation is
  guarded by `!signal.aborted` and then merges the buffer, publishes the
  final state and terminates the worker. -/
def step (s : GState) (e : Event) : GState :=
  match e with
  | .start =>
      { current := s.current + 1
        vstate := ⟨true, 0, Status.initializing, []⟩
        buffer := []
        worker := some (s.current + 1)
        playLoop := s.playLoop
        pendingRejection := s.pendingRejection }
  | .ready r =>
      if s.worker = some r then
        if r = s.current then
          { s with vstate := { s.vstate with status := Status.calibrating } }
        else s
      else s
  | .calibComplete r =>
      if s.worker = some r then
        if r = s.current then
          { s with vstate := { s.vstate with status := Status.processing }
                   playLoop := some r }
        else s
      else s
  | .calibFailed r =>
      if s.worker = some r then
        if r = s.current then
          { s with vstate := { s.vstate with status := Status.processing }
                   playLoop := some r }
        else s
      else s
  | .frameResult r detected t =>
      if s.worker = some r then
        if detected then { s with buffer := s.buffer ++ [t] } else s
      else s
  | .videoError r =>
      if s.playLoop = some r then
        { s with playLoop := none, pendingRejection := true }
      else s
  | .playbackEnded r =>
      if s.playLoop = some r then
        if r = s.current then
          { current := s.current
            vstate := ⟨false, 100, Status.completed, processDetections s.buffer⟩
            buffer := s.buffer
            worker := none
            playLoop := none
            pendingRejection := s.pendingRejection }
        else { s with playLoop := none }
      else s

/-- The orchestrator state after a sequence of events, from the initial
hook state. -/
def run (es : List Event) : GState := es.foldl step initState

/-- Number of `processVideo` invocations in an event sequence. -/
def runCount : List Event → ℕ
  | [] => 0
  | Event.start :: es => runCount es + 1
  | _ :: es => runCount es

/-- The generation counter increases exactly on `start`. -/
theorem step_current (s : GState) (e : Event) :
    (step s e).current = s.current + (if e = Event.start then 1 else 0) := by
  cases e <;> simp only [step] <;> (try split_ifs) <;> simp_all

/-- Folding events adds the number of `start`s to the generation counter. -/
theorem foldl_current (es : List Event) :
    ∀ s : GState, (es.foldl step s).current = s.current + runCount es := by
  induction es with
  | nil => intro s; simp [runCount]
  | cons e rest ih =>
      intro s
      rw [List.foldl_cons, ih, step_current]
      cases e <;> (simp [runCount]; try omega)

/-- The generation counter counts the `start` events. -/
theorem run_current (es : List Event) : (run es).current = runCount es := by
  simpa [run, initState] using foldl_current es initState

/-- Claim C8: after any event history that left the pipeline `calibrating`,
a `CALIBRATION_FAILED` message never produces the `error` status, and when
it is delivered from the live worker of the current run it produces the
`processing` status (the fallback path). -/
theorem orchestrator_C8 (es : List Event) (r : ℕ)
    (h : (run es).vstate.status = Status.calibrating) :
    (run (es ++ [Event.calibFailed r])).vstate.status ≠ Status.error ∧
    ((run es).worker = some r → r = (run es).current →
      (run (es ++ [Event.calibFailed r])).vstate.status = Status.processing) := by
  have hstep : run (es ++ [Event.calibFailed r]) =
      step (run es) (Event.calibFailed r) := by
    rw [run, List.foldl_append, List.foldl_cons, List.foldl_nil]; rfl
  rw [hstep]
  constructor
  · simp only [step]
    split_ifs <;> simp_all
  · intro hw hr
    simp only [step, if_pos hw, if_pos hr]

/-- Witness for C8: `start` then `READY` of worker 1 leaves the pipeline
calibrating; `CALIBRATION_FAILED` then moves it to `processing`, not
`error`. -/
theorem orchestrator_C8_witness :
    (run ([Event.start, Event.ready 1] ++ [Event.calibFailed 1])).vstate.status ≠
        Status.error ∧
      ((run [Event.start, Event.ready 1]).worker = some 1 →
        1 = (run [Event.start, Event.ready 1]).current →
        (run ([Event.start, Event.ready 1] ++
            [Event.calibFailed 1])).vstate.status = Status.processing) :=
  orchestrator_C8 [Event.start, Event.ready 1] 1 (by decide)

/-- Claim C6 is violated by the code: `startVideoProcessing` contains no
try/catch and nobody awaits it, so when playback errors while processing,
the rejection of the playback promise escapes unhandled, the status stays
`processing` (never becomes `error`) and the worker of run 1 is **not**
terminated.  Evaluation of the orchestrator at that failing history. -/
theorem orchestrator_C6_bug :
    (run [Event.start, Event.ready 1, Event.calibComplete 1,
        Event.videoError 1]).vstate.status = Status.processing ∧
    (run [Event.start, Event.ready 1, Event.calibComplete 1,
        Event.videoError 1]).worker = some 1 ∧
    (run [Event.start, Event.ready 1, Event.calibComplete 1,
        Event.videoError 1]).pendingRejection = true := by
  refine ⟨?_, ?_, ?_⟩ <;> decide

/-- Selector for the timestamps a `FRAME_RESULT` of generation `R` with
`detected = true` contributes to the buffer. -/
def detectSel (R : ℕ) (e : Event) : Option ℚ :=
  match e with
  | Event.frameResult r true t => if r = R then some t else none
  | _ => none

/-- Timestamps delivered by detected `FRAME_RESULT`s of generation `R`
within an event sequence, in arrival order. -/
def detectedOf (R : ℕ) (es : List Event) : List ℚ := es.filterMap (detectSel R)

/-- `detectedOf` splits off its head event. -/
theorem detectedOf_cons (R : ℕ) (e : Event) (es : List Event) :
    detectedOf R (e :: es) = detectedOf R [e] ++ detectedOf R es := by
  rw [detectedOf, detectedOf, detectedOf, List.filterMap_cons]
  cases h : detectSel R e <;>
    simp [List.filterMap_cons, h]

/-- Unfolding of `step` on a detected frame result: the handler pushes the
timestamp whenever the sending worker is still alive (no abort check). -/
theorem step_frameResult_true (s : GState) (r : ℕ) (t : ℚ) :
    step s (Event.frameResult r true t) =
      if s.worker = some r then { s with buffer := s.buffer ++ [t] } else s := by
  simp [step]

/-- Invariant carried by the current run of generation `R`, where `D` is
the list of timestamps its own detected `FRAME_RESULT`s delivered so far:
the generation counter equals `R`, any live worker is the run's own, the
buffer is a sublist of `D`, and every published detection endpoint is a
timestamp from `D`. -/
def C1Inv (R : ℕ) (D : List ℚ) (s : GState) : Prop :=
  s.current = R ∧
  (s.worker = none ∨ s.worker = some R) ∧
  s.buffer.Sublist D ∧
  ∀ rg ∈ s.vstate.detections, rg.start ∈ D ∧ rg.«end» ∈ D

/-- Any event other than `start` preserves the invariant, growing `D` by
exactly the timestamps that event delivers for generation `R`. -/
theorem C1Inv_step (R : ℕ) (D : List ℚ) (s : GState) (e : Event)
    (hne : e ≠ Event.start) (h : C1Inv R D s) :
    C1Inv R (D ++ detectedOf R [e]) (step s e) := by
  obtain ⟨hcur, hw, hbuf, hdet⟩ := h
  have hgrow : ∀ l : List ℚ, s.buffer.Sublist D → s.buffer.Sublist (D ++ l) :=
    fun l hb => hb.trans (List.sublist_append_left D l)
  have hmem : ∀ l : List ℚ, ∀ x ∈ D, x ∈ D ++ l :=
    fun l x hx => List.mem_append_left l hx
  cases e with
  | start => exact absurd rfl hne
  | ready r =>
      have hD : detectedOf R [Event.ready r] = [] := rfl
      rw [hD, List.append_nil]
      simp only [step]
      split_ifs <;> exact ⟨hcur, hw, hbuf, hdet⟩
  | calibComplete r =>
      have hD : detectedOf R [Event.calibComplete r] = [] := rfl
      rw [hD, List.append_nil]
      simp only [step]
      split_ifs <;> exact ⟨hcur, hw, hbuf, hdet⟩
  | calibFailed r =>
      have hD : detectedOf R [Event.calibFailed r] = [] := rfl
      rw [hD, List.append_nil]
      simp only [step]
      split_ifs <;> exact ⟨hcur, hw, hbuf, hdet⟩
  | frameResult r d t =>
      cases d with
      | false =>
          have hD : detectedOf R [Event.frameResult r false t] = [] := rfl
          rw [hD, List.append_nil]
          simp only [step]
          split_ifs <;>
            first
            | exact ⟨hcur, hw, hbuf, hdet⟩
            | simp_all
      | true =>
          have hD : detectedOf R [Event.frameResult r true t] =
              if r = R then [t] else [] := by
            simp only [detectedOf, detectSel, List.filterMap_cons,
              List.filterMap_nil]
            split_ifs <;> rfl
          rw [step_frameResult_true, hD]
          by_cases hwr : s.worker = some r
          · have hrR : r = R := by
              rcases hw with hw0 | hw0
              · rw [hw0] at hwr; exact absurd hwr (by simp)
              · rw [hw0] at hwr
                exact (Option.some_inj.mp hwr).symm
            rw [if_pos hwr, if_pos hrR]
            exact ⟨hcur, hw, hbuf.append (List.Sublist.refl [t]),
              fun rg hrg => ⟨hmem _ _ (hdet rg hrg).1, hmem _ _ (hdet rg hrg).2⟩⟩
          · rw [if_neg hwr]
            split_ifs
            · exact ⟨hcur, hw, hgrow _ hbuf,
                fun rg hrg => ⟨hmem _ _ (hdet rg hrg).1, hmem _ _ (hdet rg hrg).2⟩⟩
            · rw [List.append_nil]
              exact ⟨hcur, hw, hbuf, hdet⟩
  | videoError r =>
      have hD : detectedOf R [Event.videoError r] = [] := rfl
      rw [hD, List.append_nil]
      simp only [step]
      split_ifs <;> exact ⟨hcur, hw, hbuf, hdet⟩
  | playbackEnded r =>
      have hD : detectedOf R [Event.playbackEnded r] = [] := rfl
      rw [hD, List.append_nil]
      simp only [step]
      split_ifs with h1 h2
      · refine ⟨hcur, Or.inl rfl, hbuf, ?_⟩
        intro rg hrg
        have hend := processDetections_endpoints_mem s.buffer rg hrg
        exact ⟨hbuf.subset hend.1, hbuf.subset hend.2⟩
      · exact ⟨hcur, hw, hbuf, hdet⟩
      · exact ⟨hcur, hw, hbuf, hdet⟩

/-- Folding a start-free event sequence preserves the invariant. -/
theorem C1Inv_foldl (es : List Event) :
    ∀ (R : ℕ) (D : List ℚ) (s : GState), Event.start ∉ es → C1Inv R D s →
      C1Inv R (D ++ detectedOf R es) (es.foldl step s) := by
  induction es with
  | nil =>
      intro R D s _ h
      simpa [detectedOf] using h
  | cons e rest ih =>
      intro R D s hns h
      have hne : e ≠ Event.start := by
        intro hc; exact hns (hc ▸ List.mem_cons_self e rest)
      have hns2 : Event.start ∉ rest := fun hc => hns (List.mem_cons_of_mem _ hc)
      rw [List.foldl_cons, detectedOf_cons, ← List.append_assoc]
      exact ih R (D ++ detectedOf R [e]) (step s e) hns2 (C1Inv_step R D s e hne h)

/-- Claim C1: starting a new run invalidates the previous one.  For every
history `es1` followed by a fresh `start` and then any start-free
continuation `es2`: the raw-detection buffer contains only (a sublist of)
the timestamps delivered by detected `FRAME_RESULT`s of the **new**
generation inside `es2`, and every endpoint of every published detection
range is such a timestamp — no `FRAME_RESULT` and no completion of a stale
run contributes anything. -/
theorem orchestrator_C1 (es1 es2 : List Event) (h : Event.start ∉ es2) :
    (run (es1 ++ Event.start :: es2)).buffer.Sublist
      (detectedOf (runCount es1 + 1) es2) ∧
    ∀ rg ∈ (run (es1 ++ Event.start :: es2)).vstate.detections,
      rg.start ∈ detectedOf (runCount es1 + 1) es2 ∧
      rg.«end» ∈ detectedOf (runCount es1 + 1) es2 := by
  have hrun : run (es1 ++ Event.start :: es2) =
      es2.foldl step (step (run es1) Event.start) := by
    rw [run, List.foldl_append, List.foldl_cons]; rfl
  have hcur : (run es1).current = runCount es1 := run_current es1
  have hbase : C1Inv (runCount es1 + 1) [] (step (run es1) Event.start) := by
    refine ⟨?_, Or.inr ?_, ?_, ?_⟩
    · rw [step_current, if_pos rfl, hcur]
    · show (step (run es1) Event.start).worker = some (runCount es1 + 1)
      simp [step, hcur]
    · show (step (run es1) Event.start).buffer.Sublist []
      simp [step]
    · show ∀ rg ∈ (step (run es1) Event.start).vstate.detections,
        rg.start ∈ [] ∧ rg.«end» ∈ []
      simp [step]
  have hinv := C1Inv_foldl es2 (runCount es1 + 1) [] _ h hbase
  rw [List.nil_append] at hinv
  rw [hrun]
  exact ⟨hinv.2.2.1, hinv.2.2.2⟩

/-- Witness for C1: a fresh run whose worker reports one detected frame at
2 s and then completes. -/
theorem orchestrator_C1_witness :
    (run ([Event.calibFailed 0] ++ Event.start ::
        [Event.ready 1, Event.calibComplete 1, Event.frameResult 1 true 2,
          Event.playbackEnded 1])).buffer.Sublist
      (detectedOf (runCount [Event.calibFailed 0] + 1)
        [Event.ready 1, Event.calibComplete 1, Event.frameResult 1 true 2,
          Event.playbackEnded 1]) ∧
    ∀ rg ∈ (run ([Event.calibFailed 0] ++ Event.start ::
        [Event.ready 1, Event.calibComplete 1, Event.frameResult 1 true 2,
          Event.playbackEnded 1])).vstate.detections,
      rg.start ∈ detectedOf (runCount [Event.calibFailed 0] + 1)
        [Event.ready 1, Event.calibComplete 1, Event.frameResult 1 true 2,
          Event.playbackEnded 1] ∧
      rg.«end» ∈ detectedOf (runCount [Event.calibFailed 0] + 1)
        [Event.ready 1, Event.calibComplete 1, Event.frameResult 1 true 2,
          Event.playbackEnded 1] :=
  orchestrator_C1 [Event.calibFailed 0]
    [Event.ready 1, Event.calibComplete 1, Event.frameResult 1 true 2,
      Event.playbackEnded 1] (by decide)

/-! ## Progress reporting (claim C7) -/

/-- Unfolding equation for an aborted callback invocation. -/
theorem runLoop_cons_abort (dur : ℚ) (f : Frame) (rest : List Frame) (fc : ℕ)
    (h : f.aborted = true) : runLoop dur (f :: rest) fc = ⟨[], []⟩ := by
  rw [runLoop]; simp [h]

/-- Unfolding equation for a frame whose pixel extraction throws. -/
theorem runLoop_cons_fail (dur : ℚ) (f : Frame) (rest : List Frame) (fc : ℕ)
    (h1 : f.aborted = false) (h2 : f.extractOk = false) :
    runLoop dur (f :: rest) fc = ⟨[], []⟩ := by
  rw [runLoop]; simp [h1, h2]

/-- The progress formula is monotone in the media time. -/
theorem progressOf_mono {dur t1 t2 : ℚ} (hd : 0 < dur) (h : t1 ≤ t2) :
    progressOf t1 dur ≤ progressOf t2 dur := by
  unfold progressOf jsRound
  refine min_le_min (le_refl 100) (Int.floor_mono ?_)
  gcongr

/-- Every reported progress value is the clamped rounded percentage of some
delivered frame's media time. -/
theorem runLoop_reports_mem (dur : ℚ) (frames : List Frame) :
    ∀ fc : ℕ, ∀ p ∈ (runLoop dur frames fc).reports,
      ∃ f ∈ frames, p = progressOf f.mediaTime dur := by
  induction frames with
  | nil => intro fc p hp; simp [runLoop] at hp
  | cons f rest ih =>
      intro fc p hp
      by_cases ha : f.aborted
      · rw [runLoop_cons_abort dur f rest fc ha] at hp
        simp at hp
      · by_cases he : f.extractOk
        · rw [runLoop_cons_ok dur f rest fc (by simpa using ha) he] at hp
          rcases List.mem_append.mp hp with hp2 | hp2
          · refine ⟨f, by simp, ?_⟩
            by_cases h30 : (fc + 1) % 30 = 0
            · rw [if_pos h30] at hp2; simpa using hp2
            · rw [if_neg h30] at hp2; simp at hp2
          · obtain ⟨f2, hf2, hpf⟩ := ih (fc + 1) p hp2
            exact ⟨f2, List.mem_cons_of_mem _ hf2, hpf⟩
        · rw [runLoop_cons_fail dur f rest fc (by simpa using ha)
            (by simpa using he)] at hp
          simp at hp

/-- With monotone media times, the reported progress values are
non-decreasing. -/
theorem runLoop_reports_pairwise (dur : ℚ) (hd : 0 < dur) (frames : List Frame) :
    ∀ fc : ℕ, List.Pairwise (· ≤ ·) (frames.map Frame.mediaTime) →
      List.Pairwise (· ≤ ·) (runLoop dur frames fc).reports := by
  induction frames with
  | nil => intro fc _; simp [runLoop]
  | cons f rest ih =>
      intro fc hmono
      rw [List.map_cons, List.pairwise_cons] at hmono
      by_cases ha : f.aborted
      · rw [runLoop_cons_abort dur f rest fc ha]; simp
      · by_cases he : f.extractOk
        · rw [runLoop_cons_ok dur f rest fc (by simpa using ha) he]
          show List.Pairwise (· ≤ ·) _
          by_cases h30 : (fc + 1) % 30 = 0
          · rw [if_pos h30]
            rw [List.singleton_append]
            refine List.Pairwise.cons ?_ (ih (fc + 1) hmono.2)
            intro p hp
            obtain ⟨f2, hf2, hpf⟩ := runLoop_reports_mem dur rest (fc + 1) p hp
            have hle : f.mediaTime ≤ f2.mediaTime :=
              hmono.1 f2.mediaTime (List.mem_map_of_mem _ hf2)
            rw [hpf]
            exact progressOf_mono hd hle
          · rw [if_neg h30, List.nil_append]
            exact ih (fc + 1) hmono.2
        · rw [runLoop_cons_fail dur f rest fc (by simpa using ha)
            (by simpa using he)]
          simp

/-- A transition never leaves a `completed` status with progress other
than 100: completion itself publishes exactly 100, and no other transition
touches `progress` while leaving a `completed` status in place. -/
theorem step_completed_progress (s : GState) (e : Event)
    (h : s.vstate.status = Status.completed → s.vstate.progress = 100) :
    (step s e).vstate.status = Status.completed →
      (step s e).vstate.progress = 100 := by
  cases e <;> simp only [step] <;> (try split_ifs) <;> simp_all

/-- The completed-progress invariant holds along every event fold. -/
theorem foldl_completed_progress (es : List Event) :
    ∀ s : GState, (s.vstate.status = Status.completed → s.vstate.progress = 100) →
      ((es.foldl step s).vstate.status = Status.completed →
        (es.foldl step s).vstate.progress = 100) := by
  induction es with
  | nil => intro s h; exact h
  | cons e rest ih =>
      intro s h
      rw [List.foldl_cons]
      exact ih (step s e) (step_completed_progress s e h)

/-- Claim C7 as amended: within one run the reported progress values are
non-decreasing (not strictly increasing — see the counterexample), each
reported value is the clamped rounded percentage
`min 100 (round (mediaTime / duration * 100))` of a delivered frame at the
30-frame cadence built into the loop, and whenever the orchestrator reaches
`completed` its published progress is exactly 100. -/
theorem frameLoop_C7_amended (dur : ℚ) (frames : List Frame) (hd : 0 < dur)
    (hmono : List.Pairwise (· ≤ ·) (frames.map Frame.mediaTime)) :
    List.Pairwise (· ≤ ·) ((runLoop dur frames 0).reports) ∧
    (∀ p ∈ (runLoop dur frames 0).reports,
      ∃ f ∈ frames, p = progressOf f.mediaTime dur) ∧
    (∀ es : List Event, (run es).vstate.status = Status.completed →
      (run es).vstate.progress = 100) := by
  refine ⟨runLoop_reports_pairwise dur hd frames 0 hmono,
    runLoop_reports_mem dur frames 0, ?_⟩
  intro es
  exact foldl_completed_progress es initState (by simp [initState])

/-- Witness for the amended C7 on two frames at 1 s and 2 s of a 100 s
video. -/
theorem frameLoop_C7_amended_witness :
    List.Pairwise (· ≤ ·)
      ((runLoop 100 [⟨1, true, false⟩, ⟨2, true, false⟩] 0).reports) ∧
    (∀ p ∈ (runLoop 100 [⟨1, true, false⟩, ⟨2, true, false⟩] 0).reports,
      ∃ f ∈ [(⟨1, true, false⟩ : Frame), ⟨2, true, false⟩],
        p = progressOf f.mediaTime 100) ∧
    (∀ es : List Event, (run es).vstate.status = Status.completed →
      (run es).vstate.progress = 100) :=
  frameLoop_C7_amended 100 [⟨1, true, false⟩, ⟨2, true, false⟩]
    (by norm_num)
    (by norm_num [List.pairwise_cons])

/-! ## `useVideoProcessor.processVideo` (rendering hook)

The hook drives the external FFmpeg engine.  One call is modelled by the
outcome of its awaited steps: writing the input file, `exec` (non-zero exit
throws `FFmpeg processing failed`), and reading the output file.  The
virtual file system is tracked as two existence flags for `input.mp4` and
`output.mp4`; `deleteFile` of a missing file throws, and the `finally`
block wraps both deletions in one `try { } catch (e) {}`. -/

/-- The `VideoProcessorState` of the hook. -/
structure ProcState where
  isReady : Bool
  isProcessing : Bool
  progress : ℤ
  status : String
  error : Option String
deriving DecidableEq, Repr

/-- How far the rendering attempt gets before failing, if at all. -/
inductive RenderOutcome where
  | writeFail
  | execFail
  | readFail
  | success
deriving DecidableEq, Repr

/-- Result of one `processVideo` call: final hook state, the returned
value (`some` a blob URL handle on success, `none` = `null` on failure),
and whether the two temporary files still exist afterwards. -/
structure ProcResult where
  state : ProcState
  ret : Option Unit
  inputFile : Bool
  outputFile : Bool
deriving DecidableEq, Repr

/-- The `finally` block's `try { await deleteFile(input); await
deleteFile(output) } catch (e) {}`: deleting a missing file throws, which
skips the second deletion but is swallowed. -/
def tryDeleteBoth (inp outp : Bool) : Bool × Bool :=
  if inp then
    -- input existed and is deleted; then the output deletion either
    -- succeeds or throws into the swallowing catch — gone either way
    (false, false)
  else
    -- deleting the missing input throws: the output deletion is skipped
    (false, outp)

/-- One call of `useVideoProcessor.processVideo`, given the pre-call hook
state and the rendering outcome. -/
def processVideoFF (s0 : ProcState) (o : RenderOutcome) : ProcResult :=
  if s0.isReady = false then
    { state := { s0 with error := some "Engine not ready" }
      ret := none
      inputFile := false
      outputFile := false }
  else
    -- setState: isProcessing, progress 0, error cleared, writing status
    let s1 : ProcState :=
      { s0 with isProcessing := true, progress := 0, error := none,
                status := "Writing file to memory..." }
    match o with
    | RenderOutcome.writeFail =>
        -- fetchFile/writeFile threw: no file was created; catch + finally
        let s2 := { s1 with error := some "Video processing failed.",
                            status := "Error" }
        let files := tryDeleteBoth false false
        { state := { s2 with isProcessing := false, progress := 100,
                             status := "Completed" }
          ret := none
          inputFile := files.1
          outputFile := files.2 }
    | RenderOutcome.execFail =>
        -- input written; exec returned non-zero, so the code throws
        let s2 := { s1 with status := "Processing video..." }
        let s3 := { s2 with error := some "Video processing failed.",
                            status := "Error" }
        let files := tryDeleteBoth true false
        { state := { s3 with isProcessing := false, progress := 100,
                             status := "Completed" }
          ret := none
          inputFile := files.1
          outputFile := files.2 }
    | RenderOutcome.readFail =>
        -- input written, exec succeeded and produced the output, but
        -- readFile threw
        let s2 := { s1 with status := "Processing video..." }
        let s3 := { s2 with error := some "Video processing failed.",
                            status := "Error" }
        let files := tryDeleteBoth true true
        { state := { s3 with isProcessing := false, progress := 100,
                             status := "Completed" }
          ret := none
          inputFile := files.1
          outputFile := files.2 }
    | RenderOutcome.success =>
        let s2 := { s1 with status := "Processing video..." }
        let s3 := { s2 with status := "Finalizing..." }
        let files := tryDeleteBoth true true
        { state := { s3 with isProcessing := false, progress := 100,
                             status := "Completed" }
          ret := some ()
          inputFile := files.1
          outputFile := files.2 }

/-- Claim C10: whenever `processVideo` runs with the engine ready — so a
rendering attempt actually happens — the `finally` block leaves
`isProcessing = false`, `progress = 100`, `status = "Completed"` in every
outcome, both temporary files are gone in every outcome, and failure is
recorded exactly by the `null` return together with the `error` field. -/
theorem videoProcessor_C10 (s0 : ProcState) (o : RenderOutcome)
    (h : s0.isReady = true) :
    (processVideoFF s0 o).state.isProcessing = false ∧
    (processVideoFF s0 o).state.progress = 100 ∧
    (processVideoFF s0 o).state.status = "Completed" ∧
    (processVideoFF s0 o).inputFile = false ∧
    (processVideoFF s0 o).outputFile = false ∧
    ((processVideoFF s0 o).ret = none ↔
      (processVideoFF s0 o).state.error.isSome = true) := by
  cases o <;> simp [processVideoFF, tryDeleteBoth, h]

/-- Witness for C10: a ready engine and a failing `exec`. -/
theorem videoProcessor_C10_witness :
    (processVideoFF ⟨true, false, 0, "Engine Ready", none⟩
        RenderOutcome.execFail).state.isProcessing = false ∧
    (processVideoFF ⟨true, false, 0, "Engine Ready", none⟩
        RenderOutcome.execFail).state.progress = 100 ∧
    (processVideoFF ⟨true, false, 0, "Engine Ready", none⟩
        RenderOutcome.execFail).state.status = "Completed" ∧
    (processVideoFF ⟨true, false, 0, "Engine Ready", none⟩
        RenderOutcome.execFail).inputFile = false ∧
    (processVideoFF ⟨true, false, 0, "Engine Ready", none⟩
        RenderOutcome.execFail).outputFile = false ∧
    ((processVideoFF ⟨true, false, 0, "Engine Ready", none⟩
        RenderOutcome.execFail).ret = none ↔
      (processVideoFF ⟨true, false, 0, "Engine Ready", none⟩
        RenderOutcome.execFail).state.error.isSome = true) :=
  videoProcessor_C10 ⟨true, false, 0, "Engine Ready", none⟩
    RenderOutcome.execFail rfl
